import Mathlib

set_option linter.unusedVariables false
set_option linter.unnecessarySeqFocus false
set_option linter.unreachableTactic false
set_option linter.unusedTactic false

/-
Verification of the weighted-quantiles summary (`summary.go`).

Modelling conventions:
* `float64` fields are modelled as rationals (`ℚ`); `int64` as `Int`.
* A `Summary` value is modelled by its entry slice, a `List SumEntry`.
* Imperative loops are modelled as structurally recursive functions on an
  explicit fuel argument; every call site passes fuel that provably bounds
  the number of iterations of the corresponding Go loop.
* The in-place writes of `compress` happen at write index `wi`, which never
  exceeds the read index `ri`, and all reads are at indices `≥ ri`; hence all
  reads observe the original entries, and the loop body can be expressed as a
  pure selection over the original list.  The post-call contents of the shared
  backing array (needed because `buildFromSummaryEntries` aliases storage) are
  reconstructed separately in `entriesAfterCompress`.
-/

namespace Quantiles

/-- Summary entry (`SumEntry` in `summary.go`): a sample value together with its
weight and conservative bounds on its cumulative rank. -/
structure SumEntry where
  value   : ℚ
  weight  : ℚ
  minRank : ℚ
  maxRank : ℚ
deriving DecidableEq, Inhabited, Repr

/-- Go `SumEntry.prevMaxRank`: upper bound on the rank of everything strictly
before this entry. -/
def SumEntry.prevMaxRank (se : SumEntry) : ℚ := se.maxRank - se.weight

/-- Go `SumEntry.nextMinRank`: lower bound on the rank of everything at or
after this entry. -/
def SumEntry.nextMinRank (se : SumEntry) : ℚ := se.minRank + se.weight

/-- Modelled from the spec: the ingestion input is an ordered sequence of
(value, weight) pairs handed over by the external buffer.  The `bufEntry`
type itself is declared outside `summary.go`. -/
structure BufEntry where
  value  : ℚ
  weight : ℚ
deriving DecidableEq, Inhabited, Repr

/-- Modelled from the spec: two-argument `int64` maximum used by `compress`;
declared outside `summary.go`. -/
def maxInt64 (a b : Int) : Int := max a b

/-- Modelled from the spec: two-argument `float64` maximum used by `compress`;
declared outside `summary.go`. -/
def maxFloat64 (a b : ℚ) : ℚ := max a b

/-- The loop of `buildFromBufferEntries`, threading `cumWeight`. -/
def buildLoop (cumWeight : ℚ) : List BufEntry → List SumEntry
  | [] => []
  | be :: rest =>
      ⟨be.value, be.weight, cumWeight, cumWeight + be.weight⟩ ::
        buildLoop (cumWeight + be.weight) rest

/-- Go `Summary.buildFromBufferEntries`: bulk ingest of sorted raw samples,
assigning exact cumulative ranks. -/
def buildFromBufferEntries (bes : List BufEntry) : List SumEntry :=
  buildLoop 0 bes

/-- Go `Summary.buildFromSummaryEntries`: installs the given entry slice as the
summary's storage (the slice is shared, not copied). -/
def buildFromSummaryEntries (ses : List SumEntry) : List SumEntry := ses

/-- Go `Summary.TotalWeight`: `maxRank` of the last entry, `0` when empty. -/
def TotalWeight (es : List SumEntry) : ℚ :=
  match es.getLast? with
  | some e => e.maxRank
  | none => 0

/-- Go `Summary.MinValue`: value of the first entry, `0` when empty. -/
def MinValue (es : List SumEntry) : ℚ :=
  match es with
  | e :: _ => e.value
  | [] => 0

/-- Go `Summary.MaxValue`: value of the last entry, `0` when empty. -/
def MaxValue (es : List SumEntry) : ℚ :=
  match es.getLast? with
  | some e => e.value
  | none => 0

/-- Go `Summary.Size`: number of entries as an `int64`. -/
def Size (es : List SumEntry) : Int := es.length

/-- Go `Summary.Clear`: resets to an empty entry sequence. -/
def Clear (_es : List SumEntry) : List SumEntry := []

/-- Go `Summary.Entries`: returns the entry slice. -/
def Entries (es : List SumEntry) : List SumEntry := es

/-- The scan of `ApproximationError`: `prev` is entry `i-1`, the list holds
entries `i, i+1, …`, and `maxGap` is the running maximum. -/
def maxGapLoop : SumEntry → List SumEntry → ℚ → ℚ
  | _, [], maxGap => maxGap
  | prev, it :: rest, maxGap =>
      let g1 := if it.maxRank - it.minRank - it.weight > maxGap then
          it.maxRank - it.minRank - it.weight else maxGap
      let g2 := if it.prevMaxRank - prev.nextMinRank > g1 then
          it.prevMaxRank - prev.nextMinRank else g1
      maxGapLoop it rest g2

/-- Go `Summary.ApproximationError`: maximal rank gap normalised by the total
weight; `0` for an empty summary. -/
def ApproximationError (es : List SumEntry) : ℚ :=
  match es with
  | [] => 0
  | e :: rest => maxGapLoop e rest 0 / TotalWeight es

/-- The main loop and residual loops of `Merge`.  `aW`/`bW` are the `maxRank`s
of the last entries of the two original inputs (used by the residual phases);
`nmr1`/`nmr2` are the `nextMinRank1`/`nextMinRank2` trackers.  One unit of
fuel is spent per main-loop iteration; each iteration consumes at least one
input entry, so fuel `|as| + |bs|` is enough. -/
def mergeLoop (aW bW : ℚ) : Nat → List SumEntry → List SumEntry → ℚ → ℚ → List SumEntry
  | _, as, [], _, nmr2 =>
      as.map fun it1 => ⟨it1.value, it1.weight, it1.minRank + nmr2, it1.maxRank + bW⟩
  | _, [], bs, nmr1, _ =>
      bs.map fun it2 => ⟨it2.value, it2.weight, it2.minRank + nmr1, it2.maxRank + aW⟩
  | 0, _ :: _, _ :: _, _, _ => []
  | fuel + 1, it1 :: as, it2 :: bs, nmr1, nmr2 =>
      if it1.value < it2.value then
        ⟨it1.value, it1.weight, it1.minRank + nmr2, it1.maxRank + it2.prevMaxRank⟩ ::
          mergeLoop aW bW fuel as (it2 :: bs) it1.nextMinRank nmr2
      else if it1.value > it2.value then
        ⟨it2.value, it2.weight, it2.minRank + nmr1, it2.maxRank + it1.prevMaxRank⟩ ::
          mergeLoop aW bW fuel (it1 :: as) bs nmr1 it2.nextMinRank
      else
        ⟨it1.value, it1.weight + it2.weight, it1.minRank + it2.minRank,
          it1.maxRank + it2.maxRank⟩ ::
          mergeLoop aW bW fuel as bs it1.nextMinRank it2.nextMinRank

/-- Go `Summary.Merge`: merges `other` into `sum`, mirroring the two early
returns for empty operands. -/
def Merge (sum other : List SumEntry) : List SumEntry :=
  if other = [] then sum
  else if sum = [] then other
  else
    mergeLoop ((sum.getLast?.getD default).maxRank) ((other.getLast?.getD default).maxRank)
      (sum.length + other.length) sum other 0 0

/-- The inner admission scan of `compress`: advances `ni` while in range, the
budget is not exhausted, and the rank gap to `ri` stays within `epsDelta`.
The scan only increments `ni` while `ni ≠ es.length`, so fuel `es.length`
always suffices. -/
def innerScan (es : List SumEntry) (epsDelta : ℚ) (sizeHint addStep : Int) (ri : Nat) :
    Nat → Nat → Int → Nat × Int
  | 0, ni, acc => (ni, acc)
  | fuel + 1, ni, acc =>
      if ni ≠ es.length ∧ acc < addStep ∧
          (es.getD ni default).prevMaxRank - (es.getD ri default).nextMinRank ≤ epsDelta then
        innerScan es epsDelta sizeHint addStep ri fuel (ni + 1) (acc + sizeHint)
      else (ni, acc)

/-- The outer loop of `compress`, returning the successive values taken by the
read index `ri` — precisely the indices copied to the write position `wi` on
each iteration.  `ri` strictly increases every iteration, so fuel `es.length`
always suffices. -/
def outerLoop (es : List SumEntry) (epsDelta : ℚ) (sizeHint addStep : Int) :
    Nat → Nat → Int → List Nat
  | 0, _, _ => []
  | fuel + 1, ri, acc =>
      if ri + 1 ≠ es.length then
        let scan := innerScan es epsDelta sizeHint addStep ri es.length (ri + 1) acc
        let ri2 := if es.getD ri default = es.getD (scan.1 - 1) default then ri + 1
          else scan.1 - 1
        ri2 :: outerLoop es epsDelta sizeHint addStep fuel ri2 (scan.2 - addStep)
      else []

/-- The entries written by `compress` at write indices `1, 2, …`: one entry per
outer-loop iteration, plus the final-entry write when the last read index did
not already reach the end (`li` starts at `wi = 1`). -/
def compressWrites (es : List SumEntry) (sizeHint : Int) (epsDelta : ℚ) : List SumEntry :=
  let idxs := outerLoop es epsDelta sizeHint (es.length : Int) es.length 0 0
  let li := idxs.getLast?.getD 1
  let written := idxs.map fun i => es.getD i default
  if li + 1 ≠ es.length then written ++ [es.getD (es.length - 1) default] else written

/-- Go `Summary.compress`: no-op within the size requirement, otherwise the
result is entry `0` followed by the written entries (`entries[:wi]`). -/
def compress (es : List SumEntry) (sizeHint0 : Int) (minEps : ℚ) : List SumEntry :=
  let sizeHint := maxInt64 sizeHint0 2
  if (es.length : Int) ≤ sizeHint then es
  else
    let epsDelta := TotalWeight es * maxFloat64 (1 / (sizeHint : ℚ)) minEps
    es.take 1 ++ compressWrites es sizeHint epsDelta

/-- Contents of the full backing array after `compress` returns: positions
`1 … wi-1` hold the written entries, everything else is untouched.  This is
what a second slice aliasing the same storage (as created by
`buildFromSummaryEntries`) observes after the call. -/
def entriesAfterCompress (es : List SumEntry) (sizeHint0 : Int) (minEps : ℚ) :
    List SumEntry :=
  let sizeHint := maxInt64 sizeHint0 2
  if (es.length : Int) ≤ sizeHint then es
  else
    let epsDelta := TotalWeight es * maxFloat64 (1 / (sizeHint : ℚ)) minEps
    let ws := compressWrites es sizeHint epsDelta
    es.take 1 ++ ws ++ es.drop (1 + ws.length)

/-- Go `Summary.GenerateBoundaries`: soft-compresses the summary (sharing its
entry storage via `buildFromSummaryEntries`) and returns the values appended
onto a zero-filled buffer of the compressed length (`make` + `append`). -/
def GenerateBoundaries (es : List SumEntry) (numBoundaries : Int) : List ℚ :=
  if es = [] then []
  else
    let compressionEps := ApproximationError es + 1 / (numBoundaries : ℚ)
    let compressed := compress es numBoundaries compressionEps
    List.replicate compressed.length 0 ++ compressed.map SumEntry.value

/-- The receiver's entry slice after `GenerateBoundaries` returns: because
`buildFromSummaryEntries` installs the receiver's own slice into the scratch
summary, the in-place writes of `compress` are visible through the receiver. -/
def entriesAfterGenerateBoundaries (es : List SumEntry) (numBoundaries : Int) :
    List SumEntry :=
  if es = [] then es
  else entriesAfterCompress es numBoundaries (ApproximationError es + 1 / (numBoundaries : ℚ))

/-- The cursor advance of `GenerateQuantiles`: moves `nextIdx` forward while
`d2` is at least the doubled-rank bracket of the next entry.  Only increments
while `ni < es.length`, so fuel `es.length` always suffices. -/
def gqAdvance (es : List SumEntry) (d2 : ℚ) : Nat → Nat → Nat
  | 0, ni => ni
  | fuel + 1, ni =>
      if ni < es.length ∧ (es.getD ni default).minRank + (es.getD ni default).maxRank ≤ d2 then
        gqAdvance es d2 fuel (ni + 1)
      else ni

/-- The rank loop of `GenerateQuantiles`: emits one value per rank
`rank, rank+1, …` for `count` iterations, threading the cursor `curIdx`. -/
def gqLoop (es : List SumEntry) (numQuantiles : Int) : Nat → Nat → Nat → List ℚ
  | 0, _, _ => []
  | count + 1, rank, curIdx =>
      let d2 := 2 * ((rank : ℚ) * (es.getD (es.length - 1) default).maxRank /
        (numQuantiles : ℚ))
      let nextIdx := gqAdvance es d2 es.length (curIdx + 1)
      let cur2 := nextIdx - 1
      let v :=
        if nextIdx = es.length then (es.getD cur2 default).value
        else if d2 < (es.getD cur2 default).nextMinRank + (es.getD nextIdx default).prevMaxRank
          then (es.getD cur2 default).value
        else (es.getD nextIdx default).value
      v :: gqLoop es numQuantiles count (rank + 1) cur2

/-- Go `Summary.GenerateQuantiles`: empty for an empty summary; clamps
`numQuantiles < 2` up to `2`; then runs the rank loop for ranks
`0 … numQuantiles`. -/
def GenerateQuantiles (es : List SumEntry) (numQuantiles0 : Int) : List ℚ :=
  if es = [] then []
  else
    let numQuantiles := if numQuantiles0 < 2 then 2 else numQuantiles0
    gqLoop es numQuantiles (numQuantiles.toNat + 1) 0 0

/-! ## Invariants -/

/-- Rank-consistency chain: `v`, `m`, `M` are the value, `nextMinRank` and
`maxRank` contributed by the (virtual) predecessor.  For every entry: values
are non-decreasing, the predecessor's `nextMinRank` is at most its `minRank`,
the predecessor's `maxRank` is at most its `prevMaxRank`, its weight is
non-negative, and `minRank + weight ≤ maxRank`. -/
def Chain3 : ℚ → ℚ → ℚ → List SumEntry → Prop
  | _, _, _, [] => True
  | v, m, M, e :: rest =>
      v ≤ e.value ∧ m ≤ e.minRank ∧ M ≤ e.prevMaxRank ∧ 0 ≤ e.weight ∧
        e.minRank + e.weight ≤ e.maxRank ∧ Chain3 e.value e.nextMinRank e.maxRank rest

/-- A valid summary: empty, or rank-consistent with first `minRank = 0`. -/
def ValidS : List SumEntry → Prop
  | [] => True
  | e :: rest => e.minRank = 0 ∧ Chain3 e.value 0 0 (e :: rest)

/-- Exact cumulative-rank shape starting at cumulative weight `c`:
every entry has `minRank = c'` and `maxRank = c' + weight` for the running
cumulative weight `c'`. -/
def Exact : ℚ → List SumEntry → Prop
  | _, [] => True
  | c, e :: rest => e.minRank = c ∧ e.maxRank = c + e.weight ∧ Exact (c + e.weight) rest

/-- Total weight of a buffer. -/
def sumWeights (bes : List BufEntry) : ℚ := (bes.map BufEntry.weight).sum

/-- Total weight carried by a list of summary entries. -/
def sumEntryWeights (es : List SumEntry) : ℚ := (es.map SumEntry.weight).sum

/-- Summaries reachable through the public construction pipeline: built from a
value-sorted buffer with non-negative weights, then any sequence of `Merge`
and `compress` calls. -/
inductive Reachable : List SumEntry → Prop
  | build (bes : List BufEntry)
      (hsorted : List.Chain' (fun a b => a.value ≤ b.value) bes)
      (hw : ∀ be ∈ bes, 0 ≤ be.weight) :
      Reachable (buildFromBufferEntries bes)
  | merge {s t : List SumEntry} : Reachable s → Reachable t → Reachable (Merge s t)
  | compressed {s : List SumEntry} (sizeHint : Int) (minEps : ℚ) :
      Reachable s → Reachable (compress s sizeHint minEps)

/-! ## Basic facts about the chain invariant -/

theorem chain3_mono {v v' m m' M M' : ℚ} {l : List SumEntry}
    (hv : v' ≤ v) (hm : m' ≤ m) (hM : M' ≤ M) (h : Chain3 v m M l) :
    Chain3 v' m' M' l := by
  cases l with
  | nil => trivial
  | cons e rest =>
      obtain ⟨h1, h2, h3, h4, h5, h6⟩ := h
      exact ⟨hv.trans h1, hm.trans h2, hM.trans h3, h4, h5, h6⟩

theorem chain3_weight_nonneg {v m M : ℚ} {l : List SumEntry}
    (h : Chain3 v m M l) : ∀ e ∈ l, 0 ≤ e.weight := by
  induction l generalizing v m M with
  | nil => intro e he; cases he
  | cons a rest ih =>
      obtain ⟨_, _, _, h4, _, h6⟩ := h
      intro e he
      rcases List.mem_cons.mp he with rfl | he
      · exact h4
      · exact ih h6 e he

theorem chain3_slack {v m M : ℚ} {l : List SumEntry}
    (h : Chain3 v m M l) : ∀ e ∈ l, e.minRank + e.weight ≤ e.maxRank := by
  induction l generalizing v m M with
  | nil => intro e he; cases he
  | cons a rest ih =>
      obtain ⟨_, _, _, _, h5, h6⟩ := h
      intro e he
      rcases List.mem_cons.mp he with rfl | he
      · exact h5
      · exact ih h6 e he

theorem chain3_weaken_tail {v m M : ℚ} {e : SumEntry} {l : List SumEntry}
    (h : Chain3 v m M (e :: l)) : Chain3 v m M l := by
  obtain ⟨h1, h2, h3, h4, h5, h6⟩ := h
  refine chain3_mono h1 ?_ ?_ h6
  · exact h2.trans (le_add_of_nonneg_right h4)
  · exact h3.trans (sub_le_self _ h4)

theorem chain3_sublist {v m M : ℚ} {l' l : List SumEntry}
    (hs : List.Sublist l' l) (h : Chain3 v m M l) : Chain3 v m M l' := by
  induction hs generalizing v m M with
  | slnil => trivial
  | cons a _hsub ih => exact ih (chain3_weaken_tail h)
  | cons₂ a _hsub ih =>
      obtain ⟨h1, h2, h3, h4, h5, h6⟩ := h
      exact ⟨h1, h2, h3, h4, h5, ih h6⟩

theorem chain3_max_le_total {v m M : ℚ} {l : List SumEntry}
    (h : Chain3 v m M l) : ∀ e ∈ l, e.maxRank ≤ TotalWeight l := by
  induction l generalizing v m M with
  | nil => intro e he; cases he
  | cons a rest ih =>
      obtain ⟨_, _, _, h4, _, h6⟩ := h
      intro e he
      cases rest with
      | nil =>
          rcases List.mem_cons.mp he with rfl | he
          · simp [TotalWeight]
          · cases he
      | cons b rest2 =>
          have hTW : TotalWeight (a :: b :: rest2) = TotalWeight (b :: rest2) := by
            simp [TotalWeight]
          rcases List.mem_cons.mp he with rfl | he
          · have hp := h6.2.2.1
            have hw := h6.2.2.2.1
            have h1 : e.maxRank ≤ b.maxRank := by
              simp only [SumEntry.prevMaxRank] at hp
              linarith
            have h2 : b.maxRank ≤ TotalWeight (b :: rest2) :=
              ih h6 b (List.mem_cons_self b rest2)
            rw [hTW]; exact h1.trans h2
          · rw [hTW]; exact ih h6 e he

theorem chain3_chain_value {v m M : ℚ} {l : List SumEntry}
    (h : Chain3 v m M l) : List.Chain' (fun a b => a.value ≤ b.value) l := by
  induction l generalizing v m M with
  | nil => simp
  | cons a rest ih =>
      obtain ⟨_, _, _, _, _, h6⟩ := h
      cases rest with
      | nil => simp
      | cons b rest2 =>
          refine List.Chain'.cons ?_ (ih h6)
          exact h6.1

theorem chain3_chain_min {v m M : ℚ} {l : List SumEntry}
    (h : Chain3 v m M l) : List.Chain' (fun a b => a.minRank ≤ b.minRank) l := by
  induction l generalizing v m M with
  | nil => simp
  | cons a rest ih =>
      obtain ⟨_, _, _, h4, _, h6⟩ := h
      cases rest with
      | nil => simp
      | cons b rest2 =>
          refine List.Chain'.cons ?_ (ih h6)
          have := h6.2.1
          simp only [SumEntry.nextMinRank] at this
          linarith

theorem chain3_chain_max {v m M : ℚ} {l : List SumEntry}
    (h : Chain3 v m M l) : List.Chain' (fun a b => a.maxRank ≤ b.maxRank) l := by
  induction l generalizing v m M with
  | nil => simp
  | cons a rest ih =>
      obtain ⟨_, _, _, _, _, h6⟩ := h
      cases rest with
      | nil => simp
      | cons b rest2 =>
          refine List.Chain'.cons ?_ (ih h6)
          have h3 := h6.2.2.1
          have h4 := h6.2.2.2.1
          simp only [SumEntry.prevMaxRank] at h3
          linarith

/-- Shifting all `minRank`s by `c` and all `maxRank`s by `d ≥ c` preserves the
chain invariant (this is the shape of both residual loops of `Merge`). -/
theorem chain3_map_shift {l : List SumEntry} {v m M c d : ℚ} (hcd : c ≤ d)
    (h : Chain3 v m M l) :
    Chain3 v (m + c) (M + d)
      (l.map fun e => ⟨e.value, e.weight, e.minRank + c, e.maxRank + d⟩) := by
  induction l generalizing v m M with
  | nil => trivial
  | cons e rest ih =>
      obtain ⟨h1, h2, h3, h4, h5, h6⟩ := h
      simp only [List.map_cons, Chain3, SumEntry.prevMaxRank, SumEntry.nextMinRank] at h3 h6 ⊢
      refine ⟨h1, by linarith, by linarith, h4, by linarith, ?_⟩
      exact chain3_mono (le_refl _) (le_of_eq (by ring)) (le_refl _) (ih h6)

/-! ## Construction lemmas -/

theorem buildLoop_chain3 :
    ∀ (bes : List BufEntry) (v c : ℚ),
      List.Chain' (fun a b => a.value ≤ b.value) bes →
      (∀ be ∈ bes, 0 ≤ be.weight) →
      (∀ be ∈ bes.head?, v ≤ be.value) →
      Chain3 v c c (buildLoop c bes) := by
  intro bes
  induction bes with
  | nil => intro v c _ _ _; trivial
  | cons be rest ih =>
      intro v c hs hw hv
      refine ⟨hv be rfl, le_refl _, ?_, hw be (List.mem_cons_self _ _), ?_, ?_⟩
      · simp [SumEntry.prevMaxRank]
      · simp
      · have hrec := ih be.value (c + be.weight) (List.Chain'.tail hs)
          (fun e he => hw e (List.mem_cons_of_mem _ he)) ?_
        · simp only [SumEntry.nextMinRank]
          exact hrec
        · intro e he
          cases rest with
          | nil => cases he
          | cons b rest2 =>
              simp only [List.head?_cons, Option.mem_def, Option.some.injEq] at he
              subst he
              exact List.chain'_cons.mp hs |>.1

theorem validS_build (bes : List BufEntry)
    (hs : List.Chain' (fun a b => a.value ≤ b.value) bes)
    (hw : ∀ be ∈ bes, 0 ≤ be.weight) :
    ValidS (buildFromBufferEntries bes) := by
  cases bes with
  | nil => trivial
  | cons be rest =>
      refine ⟨rfl, ?_⟩
      have := buildLoop_chain3 (be :: rest) be.value 0 hs hw (by simp)
      exact this

theorem exact_buildLoop : ∀ (bes : List BufEntry) (c : ℚ), Exact c (buildLoop c bes) := by
  intro bes
  induction bes with
  | nil => intro c; trivial
  | cons be rest ih => exact fun c => ⟨rfl, rfl, ih (c + be.weight)⟩

theorem exact_min_eq {c : ℚ} {l : List SumEntry} (h : Exact c l) :
    ∀ e ∈ l, e.minRank = e.maxRank - e.weight := by
  induction l generalizing c with
  | nil => intro e he; cases he
  | cons a rest ih =>
      obtain ⟨h1, h2, h3⟩ := h
      intro e he
      rcases List.mem_cons.mp he with rfl | he
      · rw [h1, h2]; ring
      · exact ih h3 e he

theorem maxGapLoop_exact :
    ∀ (l : List SumEntry) (prev : SumEntry) (c : ℚ),
      prev.nextMinRank = c → Exact c l → maxGapLoop prev l 0 = 0 := by
  intro l
  induction l with
  | nil => intro prev c _ _; rfl
  | cons it rest ih =>
      intro prev c hprev hex
      obtain ⟨h1, h2, h3⟩ := hex
      have hg1 : ¬ it.maxRank - it.minRank - it.weight > 0 := by rw [h1, h2]; simp
      have hg2 : ¬ it.prevMaxRank - prev.nextMinRank > 0 := by
        simp only [SumEntry.prevMaxRank]
        rw [hprev, h2]; simp
      simp only [maxGapLoop, if_neg hg1, if_neg hg2]
      refine ih it (c + it.weight) ?_ h3
      simp [SumEntry.nextMinRank, h1]

theorem approximationError_exact {l : List SumEntry} (h : Exact 0 l) :
    ApproximationError l = 0 := by
  cases l with
  | nil => rfl
  | cons e rest =>
      obtain ⟨h1, h2, h3⟩ := h
      have : maxGapLoop e rest 0 = 0 := by
        refine maxGapLoop_exact rest e (0 + e.weight) ?_ h3
        simp [SumEntry.nextMinRank, h1]
      simp [ApproximationError, this]

theorem totalWeight_exact :
    ∀ (l : List SumEntry) (c : ℚ), Exact c l → l ≠ [] →
      TotalWeight l = c + sumEntryWeights l := by
  intro l
  induction l with
  | nil => intro c _ h; exact absurd rfl h
  | cons a rest ih =>
      intro c hex _
      obtain ⟨h1, h2, h3⟩ := hex
      cases rest with
      | nil => simp [TotalWeight, sumEntryWeights, h2]
      | cons b rest2 =>
          have hTW : TotalWeight (a :: b :: rest2) = TotalWeight (b :: rest2) := by
            simp [TotalWeight]
          rw [hTW, ih (c + a.weight) h3 (by simp)]
          simp [sumEntryWeights]
          ring

/-! ## Merge lemmas -/

theorem chain3_mergeLoop :
    ∀ (fuel : Nat) (as bs : List SumEntry) (nmr1 nmr2 v Ma Mb aW bW : ℚ),
      as.length + bs.length ≤ fuel →
      Chain3 v nmr1 Ma as → Chain3 v nmr2 Mb bs →
      (∀ e ∈ as, e.maxRank ≤ aW) → (∀ e ∈ bs, e.maxRank ≤ bW) →
      Ma ≤ aW → Mb ≤ bW → nmr1 ≤ aW → nmr2 ≤ bW →
      Chain3 v (nmr1 + nmr2) (Ma + Mb) (mergeLoop aW bW fuel as bs nmr1 nmr2) := by
  intro fuel
  induction fuel with
  | zero =>
      intro as bs nmr1 nmr2 v Ma Mb aW bW hlen hA hB hAW hBW hMa hMb hn1 hn2
      cases bs with
      | nil =>
          simp only [mergeLoop]
          exact chain3_mono (le_refl _) (le_refl _) (by linarith) (chain3_map_shift hn2 hA)
      | cons b bs2 =>
          cases as with
          | nil =>
              simp only [mergeLoop]
              exact chain3_mono (le_refl _) (le_of_eq (by ring)) (by linarith)
                (chain3_map_shift hn1 hB)
          | cons a as2 => simp at hlen
  | succ fuel ih =>
      intro as bs nmr1 nmr2 v Ma Mb aW bW hlen hA hB hAW hBW hMa hMb hn1 hn2
      cases bs with
      | nil =>
          simp only [mergeLoop]
          exact chain3_mono (le_refl _) (le_refl _) (by linarith) (chain3_map_shift hn2 hA)
      | cons b bs2 =>
          cases as with
          | nil =>
              simp only [mergeLoop]
              exact chain3_mono (le_refl _) (le_of_eq (by ring)) (by linarith)
                (chain3_map_shift hn1 hB)
          | cons a as2 =>
              obtain ⟨ha1, ha2, ha3, ha4, ha5, ha6⟩ := hA
              obtain ⟨hb1, hb2, hb3, hb4, hb5, hb6⟩ := hB
              have hlen2 : as2.length + (b :: bs2).length ≤ fuel := by
                simp only [List.length_cons] at hlen ⊢; omega
              have hlen3 : (a :: as2).length + bs2.length ≤ fuel := by
                simp only [List.length_cons] at hlen ⊢; omega
              have hlen4 : as2.length + bs2.length ≤ fuel := by
                simp only [List.length_cons] at hlen; omega
              have haAW : a.maxRank ≤ aW := hAW a (List.mem_cons_self _ _)
              have hbBW : b.maxRank ≤ bW := hBW b (List.mem_cons_self _ _)
              have hAW2 : ∀ e ∈ as2, e.maxRank ≤ aW :=
                fun e he => hAW e (List.mem_cons_of_mem _ he)
              have hBW2 : ∀ e ∈ bs2, e.maxRank ≤ bW :=
                fun e he => hBW e (List.mem_cons_of_mem _ he)
              by_cases hlt : a.value < b.value
              · simp only [mergeLoop, if_pos hlt]
                refine ⟨ha1, (by linarith : nmr1 + nmr2 ≤ a.minRank + nmr2), ?_, ha4, ?_, ?_⟩
                · simp only [SumEntry.prevMaxRank] at ha3 hb3 ⊢
                  linarith
                · simp only [SumEntry.prevMaxRank] at hb3 ⊢
                  linarith
                · have hrec := ih as2 (b :: bs2) a.nextMinRank nmr2 a.value
                      a.maxRank b.prevMaxRank aW bW hlen2 ha6
                      ⟨le_of_lt hlt, hb2, le_refl _, hb4, hb5, hb6⟩
                      hAW2 hBW haAW
                      (by simp only [SumEntry.prevMaxRank]; linarith)
                      (by simp only [SumEntry.nextMinRank]; linarith)
                      hn2
                  exact chain3_mono (le_refl _)
                    (le_of_eq (by simp only [SumEntry.nextMinRank]; ring))
                    (le_refl _) hrec
              · by_cases hgt : a.value > b.value
                · simp only [mergeLoop, if_neg hlt, if_pos hgt]
                  refine ⟨hb1, (by linarith : nmr1 + nmr2 ≤ b.minRank + nmr1), ?_, hb4, ?_, ?_⟩
                  · simp only [SumEntry.prevMaxRank] at ha3 hb3 ⊢
                    linarith
                  · simp only [SumEntry.prevMaxRank] at ha3 ⊢
                    linarith
                  · have hrec := ih (a :: as2) bs2 nmr1 b.nextMinRank b.value
                        a.prevMaxRank b.maxRank aW bW hlen3
                        ⟨le_of_lt hgt, ha2, le_refl _, ha4, ha5, ha6⟩
                        hb6 hAW hBW2
                        (by simp only [SumEntry.prevMaxRank]; linarith)
                        hbBW hn1
                        (by simp only [SumEntry.nextMinRank]; linarith)
                    exact chain3_mono (le_refl _)
                      (le_of_eq (by simp only [SumEntry.nextMinRank]; ring))
                      (le_of_eq (by ring)) hrec
                · have heqv : a.value = b.value := le_antisymm (not_lt.mp hgt) (not_lt.mp hlt)
                  simp only [mergeLoop, if_neg hlt, if_neg hgt]
                  refine ⟨ha1, (by linarith : nmr1 + nmr2 ≤ a.minRank + b.minRank), ?_,
                    (by linarith : (0:ℚ) ≤ a.weight + b.weight), ?_, ?_⟩
                  · simp only [SumEntry.prevMaxRank] at ha3 hb3 ⊢
                    linarith
                  · show a.minRank + b.minRank + (a.weight + b.weight) ≤ a.maxRank + b.maxRank
                    linarith
                  · have hrec := ih as2 bs2 a.nextMinRank b.nextMinRank a.value
                        a.maxRank b.maxRank aW bW hlen4 ha6
                        (chain3_mono (le_of_eq heqv) (le_refl _) (le_refl _) hb6)
                        hAW2 hBW2 haAW hbBW
                        (by simp only [SumEntry.nextMinRank]; linarith)
                        (by simp only [SumEntry.nextMinRank]; linarith)
                    exact chain3_mono (le_refl _)
                      (le_of_eq (by simp only [SumEntry.nextMinRank]; ring))
                      (le_refl _) hrec

theorem mergeLoop_cons (aW bW : ℚ) (fuel : Nat) (a b : SumEntry)
    (as bs : List SumEntry) (n1 n2 : ℚ) :
    ∃ rest, mergeLoop aW bW (fuel + 1) (a :: as) (b :: bs) n1 n2 =
      (if a.value < b.value then
        (⟨a.value, a.weight, a.minRank + n2, a.maxRank + b.prevMaxRank⟩ : SumEntry)
      else if a.value > b.value then
        ⟨b.value, b.weight, b.minRank + n1, b.maxRank + a.prevMaxRank⟩
      else
        ⟨a.value, a.weight + b.weight, a.minRank + b.minRank,
          a.maxRank + b.maxRank⟩) :: rest := by
  simp only [mergeLoop]
  split_ifs <;> exact ⟨_, rfl⟩

theorem exact_congr {c c2 : ℚ} {l : List SumEntry} (h : Exact c l) (he : c = c2) :
    Exact c2 l := he ▸ h

theorem exact_map_shift {c d : ℚ} :
    ∀ {l : List SumEntry}, Exact c l →
      Exact (c + d) (l.map fun e => ⟨e.value, e.weight, e.minRank + d, e.maxRank + d⟩) := by
  intro l
  induction l generalizing c with
  | nil => intro _; trivial
  | cons e rest ih =>
      intro h
      obtain ⟨h1, h2, h3⟩ := h
      simp only [List.map_cons]
      refine ⟨?_, ?_, ?_⟩
      · show e.minRank + d = c + d
        rw [h1]
      · show e.maxRank + d = c + d + e.weight
        rw [h2]; ring
      · show Exact (c + d + e.weight) _
        exact exact_congr (ih h3) (by ring)

theorem sumEntryWeights_map_shift (c d : ℚ) :
    ∀ (l : List SumEntry),
      sumEntryWeights (l.map fun e => ⟨e.value, e.weight, e.minRank + c, e.maxRank + d⟩) =
        sumEntryWeights l := by
  intro l
  induction l with
  | nil => rfl
  | cons e rest ih =>
      simp only [List.map_cons, sumEntryWeights, List.sum_cons] at ih ⊢
      rw [ih]

theorem exact_mergeLoop :
    ∀ (fuel : Nat) (as bs : List SumEntry) (c1 c2 aW bW : ℚ),
      as.length + bs.length ≤ fuel →
      Exact c1 as → Exact c2 bs →
      c1 + sumEntryWeights as = aW → c2 + sumEntryWeights bs = bW →
      Exact (c1 + c2) (mergeLoop aW bW fuel as bs c1 c2) := by
  intro fuel
  induction fuel with
  | zero =>
      intro as bs c1 c2 aW bW hlen hA hB haW hbW
      cases bs with
      | nil =>
          simp only [mergeLoop]
          simp only [sumEntryWeights, List.map_nil, List.sum_nil, add_zero] at hbW
          subst hbW
          exact exact_map_shift hA
      | cons b bs2 =>
          cases as with
          | nil =>
              simp only [mergeLoop]
              simp only [sumEntryWeights, List.map_nil, List.sum_nil, add_zero] at haW
              subst haW
              exact exact_congr (exact_map_shift hB) (by ring)
          | cons a as2 => simp at hlen
  | succ fuel ih =>
      intro as bs c1 c2 aW bW hlen hA hB haW hbW
      cases bs with
      | nil =>
          simp only [mergeLoop]
          simp only [sumEntryWeights, List.map_nil, List.sum_nil, add_zero] at hbW
          subst hbW
          exact exact_map_shift hA
      | cons b bs2 =>
          cases as with
          | nil =>
              simp only [mergeLoop]
              simp only [sumEntryWeights, List.map_nil, List.sum_nil, add_zero] at haW
              subst haW
              exact exact_congr (exact_map_shift hB) (by ring)
          | cons a as2 =>
              obtain ⟨ha1, ha2, ha3⟩ := hA
              obtain ⟨hb1, hb2, hb3⟩ := hB
              have hlen2 : as2.length + (b :: bs2).length ≤ fuel := by
                simp only [List.length_cons] at hlen ⊢; omega
              have hlen3 : (a :: as2).length + bs2.length ≤ fuel := by
                simp only [List.length_cons] at hlen ⊢; omega
              have hlen4 : as2.length + bs2.length ≤ fuel := by
                simp only [List.length_cons] at hlen; omega
              have hsumA : c1 + a.weight + sumEntryWeights as2 = aW := by
                simp only [sumEntryWeights, List.map_cons, List.sum_cons] at haW ⊢
                linarith
              have hsumB : c2 + b.weight + sumEntryWeights bs2 = bW := by
                simp only [sumEntryWeights, List.map_cons, List.sum_cons] at hbW ⊢
                linarith
              have hanm : a.nextMinRank = c1 + a.weight := by
                simp [SumEntry.nextMinRank, ha1]
              have hbnm : b.nextMinRank = c2 + b.weight := by
                simp [SumEntry.nextMinRank, hb1]
              by_cases hlt : a.value < b.value
              · simp only [mergeLoop, if_pos hlt]
                refine ⟨by rw [ha1], ?_, ?_⟩
                · simp only [SumEntry.prevMaxRank]
                  rw [ha2, hb2]; ring
                · rw [hanm]
                  exact exact_congr (ih as2 (b :: bs2) (c1 + a.weight) c2 aW bW hlen2 ha3
                    ⟨hb1, hb2, hb3⟩ hsumA hbW) (by ring)
              · by_cases hgt : a.value > b.value
                · simp only [mergeLoop, if_neg hlt, if_pos hgt]
                  refine ⟨by rw [hb1]; ring, ?_, ?_⟩
                  · simp only [SumEntry.prevMaxRank]
                    rw [ha2, hb2]; ring
                  · rw [hbnm]
                    exact exact_congr (ih (a :: as2) bs2 c1 (c2 + b.weight) aW bW hlen3
                      ⟨ha1, ha2, ha3⟩ hb3 haW hsumB) (by ring)
                · simp only [mergeLoop, if_neg hlt, if_neg hgt]
                  refine ⟨by rw [ha1, hb1], ?_, ?_⟩
                  · rw [ha2, hb2]; ring
                  · rw [hanm, hbnm]
                    exact exact_congr (ih as2 bs2 (c1 + a.weight) (c2 + b.weight) aW bW hlen4
                      ha3 hb3 hsumA hsumB) (by ring)

theorem sumEntryWeights_mergeLoop :
    ∀ (fuel : Nat) (as bs : List SumEntry) (n1 n2 aW bW : ℚ),
      as.length + bs.length ≤ fuel →
      sumEntryWeights (mergeLoop aW bW fuel as bs n1 n2) =
        sumEntryWeights as + sumEntryWeights bs := by
  intro fuel
  induction fuel with
  | zero =>
      intro as bs n1 n2 aW bW hlen
      cases bs with
      | nil => simp only [mergeLoop, sumEntryWeights_map_shift]; simp [sumEntryWeights]
      | cons b bs2 =>
          cases as with
          | nil => simp only [mergeLoop, sumEntryWeights_map_shift]; simp [sumEntryWeights]
          | cons a as2 => simp at hlen
  | succ fuel ih =>
      intro as bs n1 n2 aW bW hlen
      cases bs with
      | nil => simp only [mergeLoop, sumEntryWeights_map_shift]; simp [sumEntryWeights]
      | cons b bs2 =>
          cases as with
          | nil => simp only [mergeLoop, sumEntryWeights_map_shift]; simp [sumEntryWeights]
          | cons a as2 =>
              have hlen2 : as2.length + (b :: bs2).length ≤ fuel := by
                simp only [List.length_cons] at hlen ⊢; omega
              have hlen3 : (a :: as2).length + bs2.length ≤ fuel := by
                simp only [List.length_cons] at hlen ⊢; omega
              have hlen4 : as2.length + bs2.length ≤ fuel := by
                simp only [List.length_cons] at hlen; omega
              by_cases hlt : a.value < b.value
              · simp only [mergeLoop, if_pos hlt]
                simp only [sumEntryWeights, List.map_cons, List.sum_cons] at *
                rw [ih as2 (b :: bs2) a.nextMinRank n2 aW bW hlen2]
                simp only [sumEntryWeights, List.map_cons, List.sum_cons]
                ring
              · by_cases hgt : a.value > b.value
                · simp only [mergeLoop, if_neg hlt, if_pos hgt]
                  simp only [sumEntryWeights, List.map_cons, List.sum_cons] at *
                  rw [ih (a :: as2) bs2 n1 b.nextMinRank aW bW hlen3]
                  simp only [sumEntryWeights, List.map_cons, List.sum_cons]
                  ring
                · simp only [mergeLoop, if_neg hlt, if_neg hgt]
                  simp only [sumEntryWeights, List.map_cons, List.sum_cons] at *
                  rw [ih as2 bs2 a.nextMinRank b.nextMinRank aW bW hlen4]
                  ring

theorem mergeLoop_ne_nil (aW bW : ℚ) (fuel : Nat) (a b : SumEntry)
    (as bs : List SumEntry) (n1 n2 : ℚ) :
    mergeLoop aW bW (fuel + 1) (a :: as) (b :: bs) n1 n2 ≠ [] := by
  obtain ⟨rest, hrest⟩ := mergeLoop_cons aW bW fuel a b as bs n1 n2
  rw [hrest]
  simp

theorem totalWeight_eq_getLast {es : List SumEntry} (h : es ≠ []) :
    TotalWeight es = (es.getLast?.getD default).maxRank := by
  rw [TotalWeight]
  cases hL : es.getLast? with
  | none => exact absurd (List.getLast?_eq_none_iff.mp hL) h
  | some e => rfl

theorem totalWeight_nonneg_validS {es : List SumEntry} (h : ValidS es) :
    0 ≤ TotalWeight es := by
  cases es with
  | nil => simp [TotalWeight]
  | cons a rest =>
      obtain ⟨hmin, hch⟩ := h
      have h4 := hch.2.2.2.1
      have h5 := hch.2.2.2.2.1
      have hmax := chain3_max_le_total hch a (List.mem_cons_self _ _)
      linarith

theorem validS_merge {A B : List SumEntry} (hA : ValidS A) (hB : ValidS B) :
    ValidS (Merge A B) := by
  by_cases hBe : B = []
  · simpa [Merge, hBe] using hA
  · by_cases hAe : A = []
    · simpa [Merge, hBe, hAe] using hB
    · obtain ⟨a, as, rfl⟩ := List.exists_cons_of_ne_nil hAe
      obtain ⟨b, bs, rfl⟩ := List.exists_cons_of_ne_nil hBe
      obtain ⟨haMin, hChA⟩ := hA
      obtain ⟨hbMin, hChB⟩ := hB
      have hTWa : 0 ≤ TotalWeight (a :: as) := totalWeight_nonneg_validS ⟨haMin, hChA⟩
      have hTWb : 0 ≤ TotalWeight (b :: bs) := totalWeight_nonneg_validS ⟨hbMin, hChB⟩
      have hmaxA := chain3_max_le_total hChA
      have hmaxB := chain3_max_le_total hChB
      rw [totalWeight_eq_getLast (List.cons_ne_nil a as)] at hTWa hmaxA
      rw [totalWeight_eq_getLast (List.cons_ne_nil b bs)] at hTWb hmaxB
      have hChA2 : Chain3 (min a.value b.value) 0 0 (a :: as) :=
        chain3_mono (min_le_left _ _) (le_refl _) (le_refl _) hChA
      have hChB2 : Chain3 (min a.value b.value) 0 0 (b :: bs) :=
        chain3_mono (min_le_right _ _) (le_refl _) (le_refl _) hChB
      have hch := chain3_mergeLoop ((a :: as).length + (b :: bs).length)
        (a :: as) (b :: bs) 0 0 (min a.value b.value) 0 0
        (((a :: as).getLast?.getD default).maxRank)
        (((b :: bs).getLast?.getD default).maxRank)
        (le_refl _) hChA2 hChB2 hmaxA hmaxB hTWa hTWb hTWa hTWb
      have hfuel : (a :: as).length + (b :: bs).length = (as.length + bs.length + 1) + 1 := by
        simp only [List.length_cons]; omega
      rw [hfuel] at hch
      obtain ⟨rest, hrest⟩ := mergeLoop_cons
        (((a :: as).getLast?.getD default).maxRank)
        (((b :: bs).getLast?.getD default).maxRank)
        (as.length + bs.length + 1) a b as bs 0 0
      have hMerge : Merge (a :: as) (b :: bs) =
          mergeLoop (((a :: as).getLast?.getD default).maxRank)
            (((b :: bs).getLast?.getD default).maxRank)
            ((as.length + bs.length + 1) + 1) (a :: as) (b :: bs) 0 0 := by
        simp only [Merge, if_neg hBe, if_neg hAe, hfuel]
      rw [hMerge, hrest]
      rw [hrest] at hch
      constructor
      · split_ifs <;> simp [haMin, hbMin]
      · have hvv : (if a.value < b.value then
            (⟨a.value, a.weight, a.minRank + 0, a.maxRank + b.prevMaxRank⟩ : SumEntry)
          else if a.value > b.value then
            ⟨b.value, b.weight, b.minRank + 0, b.maxRank + a.prevMaxRank⟩
          else
            ⟨a.value, a.weight + b.weight, a.minRank + b.minRank,
              a.maxRank + b.maxRank⟩).value = min a.value b.value := by
          split_ifs with h1 h2
          · simp [min_eq_left (le_of_lt h1)]
          · simp [min_eq_right (le_of_lt h2)]
          · simp [min_eq_left (not_lt.mp h2)]
        rw [hvv]
        simpa using hch

/-! ## Compress lemmas -/

theorem innerScan_bounds (es : List SumEntry) (epsDelta : ℚ) (k step : Int) (ri : Nat) :
    ∀ (fuel ni : Nat) (acc : Int), ni ≤ es.length →
      ni ≤ (innerScan es epsDelta k step ri fuel ni acc).1 ∧
      (innerScan es epsDelta k step ri fuel ni acc).1 ≤ es.length := by
  intro fuel
  induction fuel with
  | zero => intro ni acc h; exact ⟨le_refl _, h⟩
  | succ fuel ih =>
      intro ni acc h
      simp only [innerScan]
      split_ifs with hcond
      · have hlt : ni < es.length := Nat.lt_of_le_of_ne h hcond.1
        have hrec := ih (ni + 1) (acc + k) (by omega)
        exact ⟨le_trans (by omega) hrec.1, hrec.2⟩
      · exact ⟨le_refl _, h⟩

theorem outerLoop_pairwise (es : List SumEntry) (epsDelta : ℚ) (k step : Int) :
    ∀ (fuel ri : Nat) (acc : Int), ri < es.length →
      List.Chain' (fun x y => x < y) (ri :: outerLoop es epsDelta k step fuel ri acc) ∧
      ∀ i ∈ outerLoop es epsDelta k step fuel ri acc, i < es.length := by
  intro fuel
  induction fuel with
  | zero =>
      intro ri acc _
      have h0 : outerLoop es epsDelta k step 0 ri acc = [] := rfl
      rw [h0]
      exact ⟨List.chain'_singleton _, fun i hi => absurd hi (List.not_mem_nil i)⟩
  | succ fuel ih =>
      intro ri acc hri
      have hbounds := innerScan_bounds es epsDelta k step ri es.length (ri + 1) acc
        (by omega)
      simp only [outerLoop]
      rcases eq_or_ne (ri + 1) es.length with hg | hg
      · rw [if_neg (by omega)]
        exact ⟨List.chain'_singleton _, fun i hi => absurd hi (List.not_mem_nil i)⟩
      · rw [if_pos hg]
        by_cases htie : es.getD ri default =
            es.getD ((innerScan es epsDelta k step ri es.length (ri + 1) acc).1 - 1) default
        · rw [if_pos htie]
          have hri2 : ri + 1 < es.length := by omega
          have hrec := ih (ri + 1)
            ((innerScan es epsDelta k step ri es.length (ri + 1) acc).2 - step) hri2
          refine ⟨List.Chain'.cons (Nat.lt_succ_self ri) hrec.1, ?_⟩
          intro i hi
          rcases List.mem_cons.mp hi with rfl | hi
          · exact hri2
          · exact hrec.2 i hi
        · rw [if_neg htie]
          have hne : (innerScan es epsDelta k step ri es.length (ri + 1) acc).1 - 1 ≠ ri :=
            fun hcontra => htie (by rw [hcontra])
          have hgt : ri < (innerScan es epsDelta k step ri es.length (ri + 1) acc).1 - 1 := by
            omega
          have hlt2 : (innerScan es epsDelta k step ri es.length (ri + 1) acc).1 - 1 <
              es.length := by omega
          have hrec := ih ((innerScan es epsDelta k step ri es.length (ri + 1) acc).1 - 1)
            ((innerScan es epsDelta k step ri es.length (ri + 1) acc).2 - step) hlt2
          refine ⟨List.Chain'.cons hgt hrec.1, ?_⟩
          intro i hi
          rcases List.mem_cons.mp hi with rfl | hi
          · exact hlt2
          · exact hrec.2 i hi

theorem pairwise_lt_length :
    ∀ (l : List Nat) (a n : Nat), List.Pairwise (fun x y => x < y) (a :: l) →
      (∀ i ∈ l, i < n) → l.length ≤ n - a - 1 := by
  intro l
  induction l with
  | nil => intro a n _ _; simp
  | cons b rest ih =>
      intro a n hp hmem
      have hab : a < b := (List.pairwise_cons.mp hp).1 b (List.mem_cons_self _ _)
      have hbn : b < n := hmem b (List.mem_cons_self _ _)
      have htail := ih b n (List.pairwise_cons.mp hp).2
        (fun i hi => hmem i (List.mem_cons_of_mem _ hi))
      simp only [List.length_cons]
      omega

theorem pairwise_le_getLast :
    ∀ (l : List Nat) (d : Nat), List.Pairwise (fun x y => x < y) l →
      ∀ i ∈ l, i ≤ l.getLast?.getD d := by
  intro l
  induction l with
  | nil => intro d _ i hi; cases hi
  | cons a rest ih =>
      intro d hp i hi
      cases rest with
      | nil =>
          rcases List.mem_cons.mp hi with rfl | hi
          · simp
          · cases hi
      | cons c rest2 =>
          rw [List.getLast?_cons_cons]
          rcases List.mem_cons.mp hi with rfl | hi
          · obtain ⟨x, hx⟩ := Option.isSome_iff_exists.mp
              (List.getLast?_isSome.mpr (List.cons_ne_nil c rest2))
            have hxmem : x ∈ c :: rest2 := by
              obtain ⟨hh, hxe⟩ := List.mem_getLast?_eq_getLast hx
              rw [hxe]
              exact List.getLast_mem hh
            have := (List.pairwise_cons.mp hp).1 x hxmem
            rw [hx]
            simp only [Option.getD_some]
            omega
          · exact ih d (List.pairwise_cons.mp hp).2 i hi

theorem sublist_map_getD (es : List SumEntry) :
    ∀ (l : List Nat) (k : Nat), List.Pairwise (fun x y => x < y) l →
      (∀ i ∈ l, k ≤ i ∧ i < es.length) →
      List.Sublist (l.map fun i => es.getD i default) (es.drop k) := by
  intro l
  induction l with
  | nil => intro k _ _; simp
  | cons i rest ih =>
      intro k hp hmem
      obtain ⟨hki, hilen⟩ := hmem i (List.mem_cons_self _ _)
      have hall := (List.pairwise_cons.mp hp).1
      have hrec : List.Sublist (rest.map fun j => es.getD j default) (es.drop (i + 1)) :=
        ih (i + 1) (List.pairwise_cons.mp hp).2
          (fun j hj => ⟨hall j hj, (hmem j (List.mem_cons_of_mem _ hj)).2⟩)
      have hdropi : es.drop i = es.getD i default :: es.drop (i + 1) := by
        rw [List.drop_eq_getElem_cons hilen, List.getD_eq_getElem _ _ hilen]
      have hsub1 : List.Sublist ((i :: rest).map fun j => es.getD j default) (es.drop i) := by
        rw [hdropi, List.map_cons]
        exact List.Sublist.cons₂ _ hrec
      exact hsub1.trans (List.drop_sublist_drop_left es hki)

theorem getLastD_mem (l : List Nat) (d : Nat) (h : l ≠ []) : l.getLast?.getD d ∈ l := by
  obtain ⟨x, hx⟩ := Option.isSome_iff_exists.mp (List.getLast?_isSome.mpr h)
  rw [hx]
  simp only [Option.getD_some]
  obtain ⟨hh, hxe⟩ := List.mem_getLast?_eq_getLast hx
  rw [hxe]
  exact List.getLast_mem hh

theorem take_one_of_ne_nil {es : List SumEntry} (h : es ≠ []) :
    es.take 1 = [es.getD 0 default] := by
  cases es with
  | nil => exact absurd rfl h
  | cons e rest => rfl

theorem compressWrites_facts (es : List SumEntry) (k : Int) (eps : ℚ)
    (hlen : 3 ≤ es.length) :
    (compressWrites es k eps).length ≤ es.length - 1 ∧
    List.Sublist (es.take 1 ++ compressWrites es k eps) es := by
  have hne : es ≠ [] := by
    intro hcontra
    rw [hcontra] at hlen
    simp at hlen
  simp only [compressWrites]
  set idxs := outerLoop es eps k (es.length : Int) es.length 0 0 with hidxs
  have h0 := outerLoop_pairwise es eps k (es.length : Int) es.length 0 0 (by omega)
  rw [← hidxs] at h0
  have hp : List.Pairwise (fun x y => x < y) (0 :: idxs) :=
    List.chain'_iff_pairwise.mp h0.1
  have hmemlen : ∀ i ∈ idxs, i < es.length := h0.2
  have hpos : ∀ i ∈ idxs, 0 < i := (List.pairwise_cons.mp hp).1
  have hptail : List.Pairwise (fun x y => x < y) idxs := (List.pairwise_cons.mp hp).2
  have hlen1 : idxs.length ≤ es.length - 1 := by
    have := pairwise_lt_length idxs 0 es.length hp hmemlen
    omega
  have hblt : idxs.getLast?.getD 1 + 1 ≠ es.length → ∀ i ∈ idxs, i < es.length - 1 := by
    intro hextra i hi
    have hne2 : idxs ≠ [] := by
      intro hcontra
      rw [hcontra] at hi
      cases hi
    have hli : idxs.getLast?.getD 1 ∈ idxs := getLastD_mem idxs 1 hne2
    have hlilen : idxs.getLast?.getD 1 < es.length := hmemlen _ hli
    have hile : i ≤ idxs.getLast?.getD 1 := pairwise_le_getLast idxs 1 hptail i hi
    omega
  by_cases hextra : idxs.getLast?.getD 1 + 1 ≠ es.length
  · rw [if_pos hextra]
    constructor
    · have hlen2 : idxs.length ≤ es.length - 2 := by
        cases hx : idxs with
        | nil => simp only [List.length_nil]; omega
        | cons j idxs2 =>
            rw [← hx]
            have := pairwise_lt_length idxs 0 (es.length - 1) hp (hblt hextra)
            omega
      simp only [List.length_append, List.length_map, List.length_singleton]
      omega
    · have hmapeq : es.take 1 ++ ((idxs.map fun i => es.getD i default) ++
          [es.getD (es.length - 1) default]) =
          ((0 :: idxs) ++ [es.length - 1]).map fun i => es.getD i default := by
        rw [take_one_of_ne_nil hne]
        simp [List.map_append]
      rw [hmapeq]
      have hpall : List.Pairwise (fun x y => x < y) ((0 :: idxs) ++ [es.length - 1]) := by
        rw [List.pairwise_append]
        refine ⟨hp, List.pairwise_singleton _ _, ?_⟩
        intro x hx y hy
        simp only [List.mem_singleton] at hy
        subst hy
        rcases List.mem_cons.mp hx with rfl | hx
        · omega
        · have := hblt hextra x hx
          omega
      have hsub := sublist_map_getD es ((0 :: idxs) ++ [es.length - 1]) 0 hpall ?_
      · rw [List.drop_zero] at hsub
        exact hsub
      · intro i hi
        rcases List.mem_append.mp hi with hi | hi
        · rcases List.mem_cons.mp hi with rfl | hi
          · omega
          · exact ⟨Nat.zero_le _, hmemlen i hi⟩
        · simp only [List.mem_singleton] at hi
          subst hi
          omega
  · rw [if_neg hextra]
    constructor
    · simp only [List.length_map]
      omega
    · have hmapeq : es.take 1 ++ (idxs.map fun i => es.getD i default) =
          (0 :: idxs).map fun i => es.getD i default := by
        rw [take_one_of_ne_nil hne]
        simp
      rw [hmapeq]
      have hsub := sublist_map_getD es (0 :: idxs) 0 hp ?_
      · rw [List.drop_zero] at hsub
        exact hsub
      · intro i hi
        rcases List.mem_cons.mp hi with rfl | hi
        · omega
        · exact ⟨Nat.zero_le _, hmemlen i hi⟩

theorem compress_active_length (es : List SumEntry) (k : Int)
    (hc : ¬ (es.length : Int) ≤ maxInt64 k 2) : 3 ≤ es.length := by
  have h2 : (2 : Int) ≤ maxInt64 k 2 := le_max_right k 2
  omega

theorem compress_length_le (es : List SumEntry) (k : Int) (eps : ℚ) :
    (compress es k eps).length ≤ es.length := by
  simp only [compress]
  by_cases hc : (es.length : Int) ≤ maxInt64 k 2
  · rw [if_pos hc]
  · rw [if_neg hc]
    have h3 := compress_active_length es k hc
    have hW := (compressWrites_facts es (maxInt64 k 2)
      (TotalWeight es * maxFloat64 (1 / ((maxInt64 k 2 : Int) : ℚ)) eps) h3).1
    simp only [List.length_append, List.length_take]
    omega

theorem compress_sublist (es : List SumEntry) (k : Int) (eps : ℚ) :
    List.Sublist (compress es k eps) es := by
  simp only [compress]
  by_cases hc : (es.length : Int) ≤ maxInt64 k 2
  · rw [if_pos hc]
  · rw [if_neg hc]
    have h3 := compress_active_length es k hc
    exact (compressWrites_facts es (maxInt64 k 2)
      (TotalWeight es * maxFloat64 (1 / ((maxInt64 k 2 : Int) : ℚ)) eps) h3).2

theorem validS_compress {es : List SumEntry} (k : Int) (eps : ℚ) (h : ValidS es) :
    ValidS (compress es k eps) := by
  by_cases hc : (es.length : Int) ≤ maxInt64 k 2
  · have : compress es k eps = es := by
      simp only [compress]
      rw [if_pos hc]
    rw [this]
    exact h
  · have h3 := compress_active_length es k hc
    have hne : es ≠ [] := by
      intro hcontra
      rw [hcontra] at h3
      simp at h3
    obtain ⟨e0, rest, rfl⟩ := List.exists_cons_of_ne_nil hne
    obtain ⟨hmin0, hch⟩ := h
    have hcomp : compress (e0 :: rest) k eps =
        e0 :: compressWrites (e0 :: rest) (maxInt64 k 2)
          (TotalWeight (e0 :: rest) *
            maxFloat64 (1 / ((maxInt64 k 2 : Int) : ℚ)) eps) := by
      simp only [compress]
      rw [if_neg hc]
      rfl
    have hchain : Chain3 e0.value 0 0 (compress (e0 :: rest) k eps) :=
      chain3_sublist (compress_sublist (e0 :: rest) k eps) hch
    rw [hcomp] at hchain ⊢
    exact ⟨hmin0, hchain⟩

theorem reachable_validS {es : List SumEntry} (h : Reachable es) : ValidS es := by
  induction h with
  | build bes hsorted hw => exact validS_build bes hsorted hw
  | merge _ _ ihs iht => exact validS_merge ihs iht
  | compressed sizeHint minEps _ ih => exact validS_compress sizeHint minEps ih

/-! ## GenerateQuantiles lemmas -/

theorem getD_mem_of_lt (es : List SumEntry) {j : Nat} (h : j < es.length) :
    es.getD j default ∈ es := by
  rw [List.getD_eq_getElem _ _ h]
  exact List.getElem_mem h

theorem totalWeight_eq_getD_last {es : List SumEntry} (h : es ≠ []) :
    (es.getD (es.length - 1) default).maxRank = TotalWeight es := by
  have hpos : 0 < es.length := List.length_pos.mpr h
  have hlt : es.length - 1 < es.length := by omega
  rw [totalWeight_eq_getLast h]
  have : es.getD (es.length - 1) default = es.getLast?.getD default := by
    rw [List.getD_eq_getElem _ _ hlt, List.getLast?_eq_getElem?,
      List.getElem?_eq_getElem hlt]
    rfl
  rw [this]

theorem gqLoop_length (es : List SumEntry) (nq : Int) :
    ∀ (count rank cur : Nat), (gqLoop es nq count rank cur).length = count := by
  intro count
  induction count with
  | zero => intro rank cur; rfl
  | succ count ih =>
      intro rank cur
      simp only [gqLoop, List.length_cons]
      rw [ih]

theorem gqAdvance_le (es : List SumEntry) (d2 : ℚ) :
    ∀ (fuel ni : Nat), ni ≤ es.length → gqAdvance es d2 fuel ni ≤ es.length := by
  intro fuel
  induction fuel with
  | zero => intro ni h; exact h
  | succ fuel ih =>
      intro ni h
      simp only [gqAdvance]
      split_ifs with hcond
      · exact ih (ni + 1) (by omega)
      · exact h

theorem gqAdvance_ge (es : List SumEntry) (d2 : ℚ) :
    ∀ (fuel ni : Nat), ni ≤ gqAdvance es d2 fuel ni := by
  intro fuel
  induction fuel with
  | zero => intro ni; exact le_refl _
  | succ fuel ih =>
      intro ni
      simp only [gqAdvance]
      split_ifs with hcond
      · exact le_trans (by omega) (ih (ni + 1))
      · exact le_refl _

theorem gqAdvance_end (es : List SumEntry) (d2 : ℚ)
    (hcond : ∀ j, j < es.length →
      (es.getD j default).minRank + (es.getD j default).maxRank ≤ d2) :
    ∀ (fuel ni : Nat), ni ≤ es.length → es.length ≤ ni + fuel →
      gqAdvance es d2 fuel ni = es.length := by
  intro fuel
  induction fuel with
  | zero => intro ni h1 h2; simp only [gqAdvance]; omega
  | succ fuel ih =>
      intro ni h1 h2
      simp only [gqAdvance]
      by_cases hni : ni < es.length
      · rw [if_pos ⟨hni, hcond ni hni⟩]
        exact ih (ni + 1) (by omega) (by omega)
      · rw [if_neg (fun hc => hni hc.1)]
        omega

theorem getLast?_cons_of_ne_nil {α : Type} (a : α) {l : List α} (h : l ≠ []) :
    (a :: l).getLast? = l.getLast? := by
  cases l with
  | nil => exact absurd rfl h
  | cons b t => exact List.getLast?_cons_cons

theorem gqLoop_succ (es : List SumEntry) (nq : Int) (count rank cur : Nat) :
    gqLoop es nq (count + 1) rank cur =
      (if gqAdvance es
            (2 * ((rank : ℚ) * (es.getD (es.length - 1) default).maxRank / (nq : ℚ)))
            es.length (cur + 1) = es.length then
        (es.getD (gqAdvance es
            (2 * ((rank : ℚ) * (es.getD (es.length - 1) default).maxRank / (nq : ℚ)))
            es.length (cur + 1) - 1) default).value
      else if 2 * ((rank : ℚ) * (es.getD (es.length - 1) default).maxRank / (nq : ℚ)) <
          (es.getD (gqAdvance es
              (2 * ((rank : ℚ) * (es.getD (es.length - 1) default).maxRank / (nq : ℚ)))
              es.length (cur + 1) - 1) default).nextMinRank +
            (es.getD (gqAdvance es
              (2 * ((rank : ℚ) * (es.getD (es.length - 1) default).maxRank / (nq : ℚ)))
              es.length (cur + 1)) default).prevMaxRank then
        (es.getD (gqAdvance es
            (2 * ((rank : ℚ) * (es.getD (es.length - 1) default).maxRank / (nq : ℚ)))
            es.length (cur + 1) - 1) default).value
      else
        (es.getD (gqAdvance es
            (2 * ((rank : ℚ) * (es.getD (es.length - 1) default).maxRank / (nq : ℚ)))
            es.length (cur + 1)) default).value) ::
      gqLoop es nq count (rank + 1)
        (gqAdvance es
          (2 * ((rank : ℚ) * (es.getD (es.length - 1) default).maxRank / (nq : ℚ)))
          es.length (cur + 1) - 1) := rfl

theorem gqLoop_getLast (es : List SumEntry) (nq : Int) :
    ∀ (count rank cur : Nat), cur < es.length →
      (∀ j, j < es.length →
        (es.getD j default).minRank + (es.getD j default).maxRank ≤
          2 * (((rank + count : Nat) : ℚ) *
            (es.getD (es.length - 1) default).maxRank / (nq : ℚ))) →
      (gqLoop es nq (count + 1) rank cur).getLast? =
        some ((es.getD (es.length - 1) default).value) := by
  intro count
  induction count with
  | zero =>
      intro rank cur hcur hcond
      rw [gqLoop_succ]
      have hnext : gqAdvance es
          (2 * ((rank : ℚ) * (es.getD (es.length - 1) default).maxRank / (nq : ℚ)))
          es.length (cur + 1) = es.length := by
        refine gqAdvance_end es _ ?_ es.length (cur + 1) (by omega) (by omega)
        intro j hj
        have := hcond j hj
        simpa using this
      rw [hnext]
      rw [if_pos rfl]
      have h0 : gqLoop es nq 0 (rank + 1) (es.length - 1) = [] := rfl
      rw [h0]
      rfl
  | succ count ih =>
      intro rank cur hcur hcond
      rw [gqLoop_succ]
      have h1 : gqAdvance es
          (2 * ((rank : ℚ) * (es.getD (es.length - 1) default).maxRank / (nq : ℚ)))
          es.length (cur + 1) ≤ es.length := gqAdvance_le es _ es.length (cur + 1) (by omega)
      have h2 : cur + 1 ≤ gqAdvance es
          (2 * ((rank : ℚ) * (es.getD (es.length - 1) default).maxRank / (nq : ℚ)))
          es.length (cur + 1) := gqAdvance_ge es _ es.length (cur + 1)
      have hcur2 : gqAdvance es
          (2 * ((rank : ℚ) * (es.getD (es.length - 1) default).maxRank / (nq : ℚ)))
          es.length (cur + 1) - 1 < es.length := by omega
      have hne : gqLoop es nq (count + 1) (rank + 1)
          (gqAdvance es
            (2 * ((rank : ℚ) * (es.getD (es.length - 1) default).maxRank / (nq : ℚ)))
            es.length (cur + 1) - 1) ≠ [] := by
        intro hcontra
        have := gqLoop_length es nq (count + 1) (rank + 1)
          (gqAdvance es
            (2 * ((rank : ℚ) * (es.getD (es.length - 1) default).maxRank / (nq : ℚ)))
            es.length (cur + 1) - 1)
        rw [hcontra] at this
        simp at this
      rw [getLast?_cons_of_ne_nil _ hne]
      refine ih (rank + 1) _ hcur2 ?_
      intro j hj
      have heq : rank + 1 + count = rank + (count + 1) := by omega
      rw [heq]
      exact hcond j hj

theorem gqAdvance_succ (es : List SumEntry) (d2 : ℚ) (fuel ni : Nat) :
    gqAdvance es d2 (fuel + 1) ni =
      if ni < es.length ∧
          (es.getD ni default).minRank + (es.getD ni default).maxRank ≤ d2 then
        gqAdvance es d2 fuel (ni + 1)
      else ni := rfl

theorem validS_min_max_le {es : List SumEntry} (h : ValidS es) (hne : es ≠ []) :
    ∀ j, j < es.length →
      (es.getD j default).minRank + (es.getD j default).maxRank ≤ 2 * TotalWeight es := by
  intro j hj
  cases es with
  | nil => exact absurd rfl hne
  | cons e0 rest =>
      obtain ⟨_, hch⟩ := h
      have hmem := getD_mem_of_lt (e0 :: rest) hj
      have hs := chain3_slack hch _ hmem
      have hw := chain3_weight_nonneg hch _ hmem
      have hm := chain3_max_le_total hch _ hmem
      linarith

theorem gq_head (es : List SumEntry) (nq : Int) (count : Nat)
    (hv : ValidS es) (hne : es ≠ []) (hw : 0 < (es.getD 0 default).weight) :
    (gqLoop es nq (count + 1) 0 0).head? = some (MinValue es) := by
  obtain ⟨e0, rest, rfl⟩ := List.exists_cons_of_ne_nil hne
  have hw0 : 0 < e0.weight := hw
  obtain ⟨hmin0, hch⟩ := hv
  obtain ⟨_, _, _, h4, h5, h6⟩ := hch
  rw [gqLoop_succ, List.head?_cons]
  have hd2 : 2 * (((0 : Nat) : ℚ) *
      ((e0 :: rest).getD ((e0 :: rest).length - 1) default).maxRank / (nq : ℚ)) = 0 := by
    norm_num
  rw [hd2]
  refine congrArg some ?_
  cases rest with
  | nil =>
      have hadv : gqAdvance [e0] 0 ([e0] : List SumEntry).length (0 + 1) = 1 := by
        show gqAdvance [e0] 0 (0 + 1) (0 + 1) = 1
        rw [gqAdvance_succ]
        rw [if_neg (by simp)]
      rw [hadv, if_pos (by simp)]
      rfl
  | cons e1 rest2 =>
      obtain ⟨_, hb2, hb3, hb4, hb5, _⟩ := h6
      simp only [SumEntry.nextMinRank] at hb2
      simp only [SumEntry.prevMaxRank] at hb3
      rw [hmin0] at hb2 h5
      have key1 : ¬ (((e0 :: e1 :: rest2).getD 1 default).minRank +
          ((e0 :: e1 :: rest2).getD 1 default).maxRank ≤ 0) := by
        show ¬ (e1.minRank + e1.maxRank ≤ 0)
        intro habs
        linarith
      have hadv : gqAdvance (e0 :: e1 :: rest2) 0
          (e0 :: e1 :: rest2).length (0 + 1) = 1 := by
        show gqAdvance (e0 :: e1 :: rest2) 0 (rest2.length + 1 + 1) (0 + 1) = 1
        rw [gqAdvance_succ]
        rw [if_neg (fun hc => key1 hc.2)]
      rw [hadv]
      rw [if_neg (by simp)]
      rw [if_pos ?_]
      · rfl
      · show (0 : ℚ) < ((e0 :: e1 :: rest2).getD 0 default).nextMinRank +
          ((e0 :: e1 :: rest2).getD 1 default).prevMaxRank
        show (0 : ℚ) < e0.nextMinRank + e1.prevMaxRank
        simp only [SumEntry.nextMinRank, SumEntry.prevMaxRank]
        rw [hmin0]
        linarith

/-! ## buildFromBufferEntries rank assignment -/

theorem buildLoop_length : ∀ (bes : List BufEntry) (c : ℚ),
    (buildLoop c bes).length = bes.length := by
  intro bes
  induction bes with
  | nil => intro c; rfl
  | cons be rest ih =>
      intro c
      simp only [buildLoop, List.length_cons]
      rw [ih]

theorem buildLoop_getD :
    ∀ (bes : List BufEntry) (c : ℚ) (i : Nat), i < bes.length →
      (buildLoop c bes).getD i default =
        ⟨(bes.getD i default).value, (bes.getD i default).weight,
          c + sumWeights (bes.take i),
          c + sumWeights (bes.take i) + (bes.getD i default).weight⟩ := by
  intro bes
  induction bes with
  | nil => intro c i h; simp at h
  | cons be rest ih =>
      intro c i h
      cases i with
      | zero =>
          show (⟨be.value, be.weight, c, c + be.weight⟩ : SumEntry) = _
          simp [sumWeights]
      | succ i =>
          simp only [List.length_cons] at h
          show (buildLoop (c + be.weight) rest).getD i default = _
          rw [ih (c + be.weight) i (by omega)]
          simp only [List.getD_cons_succ, List.take_succ_cons, sumWeights,
            List.map_cons, List.sum_cons, SumEntry.mk.injEq]
          refine ⟨trivial, trivial, by ring, by ring⟩

theorem maxValue_eq_getD_last {es : List SumEntry} (h : es ≠ []) :
    (es.getD (es.length - 1) default).value = MaxValue es := by
  have hpos : 0 < es.length := List.length_pos.mpr h
  have hlt : es.length - 1 < es.length := by omega
  have hgl : es.getD (es.length - 1) default = es.getLast?.getD default := by
    rw [List.getD_eq_getElem _ _ hlt, List.getLast?_eq_getElem?,
      List.getElem?_eq_getElem hlt]
    rfl
  rw [hgl, MaxValue]
  cases hL : es.getLast? with
  | none => exact absurd (List.getLast?_eq_none_iff.mp hL) h
  | some e => rfl

/-! ## Claim theorems -/

/-- Claim C1, counterexample: the spec asserts that after `compress(k, e)` the
entry count is at most `max(k, 2)`, but compressing the exact five-entry
summary of `[(1,1),(2,1),(3,1),(4,1),(5,1)]` with `sizeHint = 2`, `minEps = 0`
leaves three entries, which exceeds `max(2, 2) = 2`. -/
theorem compress_size_bound_counterexample :
    ¬ Size (compress (buildFromBufferEntries
        [⟨1,1⟩, ⟨2,1⟩, ⟨3,1⟩, ⟨4,1⟩, ⟨5,1⟩]) 2 0) ≤ maxInt64 2 2 := by
  norm_num [Size, compress, buildFromBufferEntries, buildLoop, maxInt64, maxFloat64,
    TotalWeight, compressWrites, outerLoop, innerScan, SumEntry.prevMaxRank,
    SumEntry.nextMinRank]

/-- Claim C1, amended: `compress(k, e)` never increases the entry count — the
size after the call is at most the size before it (the `max(k, 2)` bound of
the original claim does not hold in general). -/
theorem compress_never_grows (es : List SumEntry) (sizeHint : Int) (minEps : ℚ) :
    Size (compress es sizeHint minEps) ≤ Size es := by
  simp only [Size]
  exact_mod_cast compress_length_le es sizeHint minEps

set_option maxHeartbeats 2000000 in
/-- Witness for the amended claim C1 at the five-entry summary compressed
with `sizeHint = 2`. -/
theorem compress_never_grows_witness :
    Size (compress (buildFromBufferEntries
        [⟨1,1⟩, ⟨2,1⟩, ⟨3,1⟩, ⟨4,1⟩, ⟨5,1⟩]) 2 0) ≤
      Size (buildFromBufferEntries [⟨1,1⟩, ⟨2,1⟩, ⟨3,1⟩, ⟨4,1⟩, ⟨5,1⟩]) :=
  compress_never_grows (buildFromBufferEntries
    [⟨1,1⟩, ⟨2,1⟩, ⟨3,1⟩, ⟨4,1⟩, ⟨5,1⟩]) 2 0

/-- Claim C2: `GenerateBoundaries` is not read-only.  `buildFromSummaryEntries`
installs the receiver's own entry slice into the scratch summary, so the
in-place writes of the soft compression are visible through the receiver:
after `GenerateBoundaries(2)` on the exact five-entry summary of
`[(1,1),…,(5,1)]` the receiver's entries read `[1, 4, 5, 4, 5]` instead of the
original `[1, 2, 3, 4, 5]`. -/
theorem generateBoundaries_mutates_receiver :
    entriesAfterGenerateBoundaries
        (buildFromBufferEntries [⟨1,1⟩, ⟨2,1⟩, ⟨3,1⟩, ⟨4,1⟩, ⟨5,1⟩]) 2 =
      [⟨1,1,0,1⟩, ⟨4,1,3,4⟩, ⟨5,1,4,5⟩, ⟨4,1,3,4⟩, ⟨5,1,4,5⟩] ∧
    entriesAfterGenerateBoundaries
        (buildFromBufferEntries [⟨1,1⟩, ⟨2,1⟩, ⟨3,1⟩, ⟨4,1⟩, ⟨5,1⟩]) 2 ≠
      buildFromBufferEntries [⟨1,1⟩, ⟨2,1⟩, ⟨3,1⟩, ⟨4,1⟩, ⟨5,1⟩] := by
  have hafter : entriesAfterGenerateBoundaries
      (buildFromBufferEntries [⟨1,1⟩, ⟨2,1⟩, ⟨3,1⟩, ⟨4,1⟩, ⟨5,1⟩]) 2 =
      [⟨1,1,0,1⟩, ⟨4,1,3,4⟩, ⟨5,1,4,5⟩, ⟨4,1,3,4⟩, ⟨5,1,4,5⟩] := by
    norm_num [entriesAfterGenerateBoundaries, entriesAfterCompress,
      ApproximationError, maxGapLoop, buildFromBufferEntries, buildLoop, maxInt64,
      maxFloat64, TotalWeight, compressWrites, outerLoop, innerScan,
      SumEntry.prevMaxRank, SumEntry.nextMinRank] <;> simp
  refine ⟨hafter, ?_⟩
  rw [hafter]
  norm_num [buildFromBufferEntries, buildLoop]

/-- Claim C3: `GenerateBoundaries` does not return exactly the compressed
values — the zero-filled buffer allocated with `make` is kept as a prefix, so
on the one-entry summary of `[(1,1)]` with `numBoundaries = 2` it returns
`[0, 1]` (a zero pad followed by the value) instead of `[1]`. -/
theorem generateBoundaries_zero_padded :
    GenerateBoundaries (buildFromBufferEntries [⟨1,1⟩]) 2 = [0, 1] := by
  norm_num [GenerateBoundaries, compress, ApproximationError, maxGapLoop,
    buildFromBufferEntries, buildLoop, maxInt64, maxFloat64, TotalWeight,
    List.replicate] <;> simp

/-- Claim C4: every summary built by `buildFromBufferEntries` from a
value-sorted, non-negative-weight buffer and transformed by any sequence of
`Merge` and `compress` calls has value-sorted entries, non-decreasing
`minRank` and `maxRank` sequences, first `minRank = 0`, and last
`maxRank = TotalWeight`. -/
theorem reachable_rank_invariants (es : List SumEntry) (h : Reachable es) :
    List.Chain' (fun a b => a.value ≤ b.value) es ∧
    List.Chain' (fun a b => a.minRank ≤ b.minRank) es ∧
    List.Chain' (fun a b => a.maxRank ≤ b.maxRank) es ∧
    (∀ e, es.head? = some e → e.minRank = 0) ∧
    (∀ e, es.getLast? = some e → e.maxRank = TotalWeight es) := by
  have hv := reachable_validS h
  have hlast : ∀ e, es.getLast? = some e → e.maxRank = TotalWeight es := by
    intro e he
    rw [TotalWeight, he]
  cases es with
  | nil =>
      refine ⟨by simp, by simp, by simp, ?_, hlast⟩
      intro e he
      simp at he
  | cons e0 rest =>
      obtain ⟨hmin, hch⟩ := hv
      refine ⟨chain3_chain_value hch, chain3_chain_min hch, chain3_chain_max hch,
        ?_, hlast⟩
      intro e2 he2
      rw [List.head?_cons] at he2
      injection he2 with he2
      rw [← he2]
      exact hmin

/-- Witness for claim C4 at the summary built from `[(1,1),(2,2)]`. -/
theorem reachable_rank_invariants_witness :
    List.Chain' (fun a b => a.value ≤ b.value)
      (buildFromBufferEntries [⟨1,1⟩, ⟨2,2⟩]) ∧
    List.Chain' (fun a b => a.minRank ≤ b.minRank)
      (buildFromBufferEntries [⟨1,1⟩, ⟨2,2⟩]) ∧
    List.Chain' (fun a b => a.maxRank ≤ b.maxRank)
      (buildFromBufferEntries [⟨1,1⟩, ⟨2,2⟩]) := by
  have h := reachable_rank_invariants (buildFromBufferEntries [⟨1,1⟩, ⟨2,2⟩])
    (Reachable.build [⟨1,1⟩, ⟨2,2⟩]
      (List.Chain'.cons (by norm_num) (List.chain'_singleton _))
      (by intro be hbe; fin_cases hbe <;> norm_num))
  exact ⟨h.1, h.2.1, h.2.2.1⟩

/-- Claim C5: merging two summaries built from value-sorted buffers with
disjoint values yields a summary with zero approximation error and total
weight equal to the sum of the operands' total weights. -/
theorem merge_disjoint_exact (xs ys : List BufEntry)
    (hxs : List.Chain' (fun a b => a.value ≤ b.value) xs)
    (hys : List.Chain' (fun a b => a.value ≤ b.value) ys)
    (hdisj : ∀ x ∈ xs, ∀ y ∈ ys, x.value ≠ y.value) :
    ApproximationError
        (Merge (buildFromBufferEntries xs) (buildFromBufferEntries ys)) = 0 ∧
    TotalWeight (Merge (buildFromBufferEntries xs) (buildFromBufferEntries ys)) =
      TotalWeight (buildFromBufferEntries xs) +
        TotalWeight (buildFromBufferEntries ys) := by
  have hExA : Exact 0 (buildFromBufferEntries xs) := exact_buildLoop xs 0
  have hExB : Exact 0 (buildFromBufferEntries ys) := exact_buildLoop ys 0
  by_cases hB : buildFromBufferEntries ys = []
  · simp only [Merge, if_pos hB]
    refine ⟨approximationError_exact hExA, ?_⟩
    rw [hB]
    simp [TotalWeight]
  · by_cases hA : buildFromBufferEntries xs = []
    · simp only [Merge, if_neg hB, if_pos hA]
      refine ⟨approximationError_exact hExB, ?_⟩
      rw [hA]
      simp [TotalWeight]
    · have haW : (0 : ℚ) + sumEntryWeights (buildFromBufferEntries xs) =
          ((buildFromBufferEntries xs).getLast?.getD default).maxRank := by
        rw [← totalWeight_eq_getLast hA,
          totalWeight_exact (buildFromBufferEntries xs) 0 hExA hA]
      have hbW : (0 : ℚ) + sumEntryWeights (buildFromBufferEntries ys) =
          ((buildFromBufferEntries ys).getLast?.getD default).maxRank := by
        rw [← totalWeight_eq_getLast hB,
          totalWeight_exact (buildFromBufferEntries ys) 0 hExB hB]
      have hMerge : Merge (buildFromBufferEntries xs) (buildFromBufferEntries ys) =
          mergeLoop (((buildFromBufferEntries xs).getLast?.getD default).maxRank)
            (((buildFromBufferEntries ys).getLast?.getD default).maxRank)
            ((buildFromBufferEntries xs).length + (buildFromBufferEntries ys).length)
            (buildFromBufferEntries xs) (buildFromBufferEntries ys) 0 0 := by
        simp only [Merge, if_neg hB, if_neg hA]
      have hEx : Exact 0 (Merge (buildFromBufferEntries xs)
          (buildFromBufferEntries ys)) := by
        rw [hMerge]
        exact exact_congr (exact_mergeLoop _ _ _ 0 0 _ _ (le_refl _) hExA hExB haW hbW)
          (by ring)
      refine ⟨approximationError_exact hEx, ?_⟩
      obtain ⟨a, as, hAeq⟩ := List.exists_cons_of_ne_nil hA
      obtain ⟨b, bs, hBeq⟩ := List.exists_cons_of_ne_nil hB
      have hMne : Merge (buildFromBufferEntries xs) (buildFromBufferEntries ys) ≠ [] := by
        rw [hMerge, hAeq, hBeq]
        have hflen : (a :: as).length + (b :: bs).length =
            (as.length + bs.length + 1) + 1 := by
          simp only [List.length_cons]; omega
        rw [hflen]
        exact mergeLoop_ne_nil _ _ _ a b as bs 0 0
      rw [totalWeight_exact _ 0 hEx hMne, hMerge,
        sumEntryWeights_mergeLoop _ _ _ 0 0 _ _ (le_refl _),
        totalWeight_exact _ 0 hExA hA, totalWeight_exact _ 0 hExB hB]
      ring

/-- Witness for claim C5 at the merge scenario of the spec:
`[(1,1),(3,1),(5,1)]` merged with `[(2,1),(4,1)]`. -/
theorem merge_disjoint_exact_witness :
    ApproximationError
        (Merge (buildFromBufferEntries [⟨1,1⟩, ⟨3,1⟩, ⟨5,1⟩])
          (buildFromBufferEntries [⟨2,1⟩, ⟨4,1⟩])) = 0 ∧
    TotalWeight (Merge (buildFromBufferEntries [⟨1,1⟩, ⟨3,1⟩, ⟨5,1⟩])
        (buildFromBufferEntries [⟨2,1⟩, ⟨4,1⟩])) =
      TotalWeight (buildFromBufferEntries [⟨1,1⟩, ⟨3,1⟩, ⟨5,1⟩]) +
        TotalWeight (buildFromBufferEntries [⟨2,1⟩, ⟨4,1⟩]) :=
  merge_disjoint_exact [⟨1,1⟩, ⟨3,1⟩, ⟨5,1⟩] [⟨2,1⟩, ⟨4,1⟩]
    (List.Chain'.cons (by norm_num)
      (List.Chain'.cons (by norm_num) (List.chain'_singleton _)))
    (List.Chain'.cons (by norm_num) (List.chain'_singleton _))
    (by intro x hx y hy; fin_cases hx <;> fin_cases hy <;> norm_num)

/-- Claim C6, counterexample: the first-element law fails on a reachable
summary whose first entry has zero weight — for the summary built from
`[(1,0),(2,5)]`, `GenerateQuantiles(2)` starts with `2`, not
`MinValue() = 1`. -/
theorem generateQuantiles_head_counterexample :
    (GenerateQuantiles (buildFromBufferEntries [⟨1,0⟩, ⟨2,5⟩]) 2).head? = some 2 ∧
    MinValue (buildFromBufferEntries [⟨1,0⟩, ⟨2,5⟩]) = 1 := by
  constructor <;>
    norm_num [GenerateQuantiles, gqLoop, gqAdvance, buildFromBufferEntries,
      buildLoop, MinValue, SumEntry.nextMinRank, SumEntry.prevMaxRank] <;> simp

/-- Claim C6, amended: for every rank-consistent non-empty summary whose
first entry has positive weight and every `n ≥ 2`, `GenerateQuantiles(n)`
returns `n + 1` values, starting at `MinValue()` and ending at `MaxValue()`;
and an argument `< 2` is clamped up to `2`. -/
theorem generateQuantiles_laws (es : List SumEntry) (n : Int)
    (hv : ValidS es) (hne : es ≠ []) (hw : 0 < (es.getD 0 default).weight)
    (hn : 2 ≤ n) :
    (GenerateQuantiles es n).length = n.toNat + 1 ∧
    (GenerateQuantiles es n).head? = some (MinValue es) ∧
    (GenerateQuantiles es n).getLast? = some (MaxValue es) ∧
    (∀ m : Int, m < 2 → GenerateQuantiles es m = GenerateQuantiles es 2) := by
  have hGQ : GenerateQuantiles es n = gqLoop es n (n.toNat + 1) 0 0 := by
    simp only [GenerateQuantiles, if_neg hne]
    rw [if_neg (by omega : ¬ n < 2)]
  refine ⟨?_, ?_, ?_, ?_⟩
  · rw [hGQ]
    exact gqLoop_length es n (n.toNat + 1) 0 0
  · rw [hGQ]
    exact gq_head es n n.toNat hv hne hw
  · rw [hGQ]
    have hlenpos : 0 < es.length := List.length_pos.mpr hne
    have hnq0 : ((n : ℚ)) ≠ 0 := by
      have h2 : (2 : ℚ) ≤ (n : ℚ) := by exact_mod_cast hn
      linarith
    have hlast := gqLoop_getLast es n n.toNat 0 0 hlenpos ?_
    · rw [hlast, maxValue_eq_getD_last hne]
    · intro j hj
      have hcast : (((0 + n.toNat : Nat)) : ℚ) = (n : ℚ) := by
        rw [Nat.zero_add]
        exact_mod_cast Int.toNat_of_nonneg (by omega : (0 : ℤ) ≤ n)
      rw [hcast, mul_div_cancel_left₀ _ hnq0]
      rw [totalWeight_eq_getD_last hne]
      exact validS_min_max_le hv hne j hj
  · intro m hm
    simp only [GenerateQuantiles, if_pos hm, if_neg (show ¬ (2 : Int) < 2 by omega)]

/-- Witness for the amended claim C6 at the summary built from
`[(1,1),(2,1)]` with `numQuantiles = 2`. -/
theorem generateQuantiles_laws_witness :
    (GenerateQuantiles (buildFromBufferEntries [⟨1,1⟩, ⟨2,1⟩]) 2).length =
      (2 : Int).toNat + 1 ∧
    (GenerateQuantiles (buildFromBufferEntries [⟨1,1⟩, ⟨2,1⟩]) 2).head? =
      some (MinValue (buildFromBufferEntries [⟨1,1⟩, ⟨2,1⟩])) ∧
    (GenerateQuantiles (buildFromBufferEntries [⟨1,1⟩, ⟨2,1⟩]) 2).getLast? =
      some (MaxValue (buildFromBufferEntries [⟨1,1⟩, ⟨2,1⟩])) := by
  have h := generateQuantiles_laws (buildFromBufferEntries [⟨1,1⟩, ⟨2,1⟩]) 2
    (validS_build [⟨1,1⟩, ⟨2,1⟩]
      (List.Chain'.cons (by norm_num) (List.chain'_singleton _))
      (by intro be hbe; fin_cases hbe <;> norm_num))
    (by simp [buildFromBufferEntries, buildLoop])
    (by norm_num [buildFromBufferEntries, buildLoop])
    (by norm_num)
  exact ⟨h.1, h.2.1, h.2.2.1⟩

/-- Claim C7: `buildFromBufferEntries` assigns each entry the cumulative
weight before it as `minRank` and that plus its own weight as `maxRank`
(so `minRank = maxRank - weight` everywhere), and the resulting summary has
zero approximation error. -/
theorem build_exact_ranks (bes : List BufEntry)
    (hs : List.Chain' (fun a b => a.value ≤ b.value) bes)
    (hw : ∀ be ∈ bes, 0 ≤ be.weight) :
    (∀ e ∈ buildFromBufferEntries bes, e.minRank = e.maxRank - e.weight) ∧
    (∀ i, i < bes.length →
      (buildFromBufferEntries bes).getD i default =
        ⟨(bes.getD i default).value, (bes.getD i default).weight,
          sumWeights (bes.take i),
          sumWeights (bes.take i) + (bes.getD i default).weight⟩) ∧
    ApproximationError (buildFromBufferEntries bes) = 0 := by
  refine ⟨exact_min_eq (exact_buildLoop bes 0), ?_,
    approximationError_exact (exact_buildLoop bes 0)⟩
  intro i hi
  rw [buildFromBufferEntries, buildLoop_getD bes 0 i hi]
  simp [SumEntry.mk.injEq]

/-- Witness for claim C7 at the buffer `[(1,1),(2,1)]`. -/
theorem build_exact_ranks_witness :
    ApproximationError (buildFromBufferEntries [⟨1,1⟩, ⟨2,1⟩]) = 0 :=
  (build_exact_ranks [⟨1,1⟩, ⟨2,1⟩]
    (List.Chain'.cons (by norm_num) (List.chain'_singleton _))
    (by intro be hbe; fin_cases hbe <;> norm_num)).2.2

/-- Claim C8: on an empty summary every query returns an empty or zero
result: `GenerateQuantiles` and `GenerateBoundaries` return `[]` for every
argument, and `ApproximationError`, `MinValue`, `MaxValue` and `TotalWeight`
all return `0`. -/
theorem empty_summary_queries (n : Int) :
    GenerateQuantiles [] n = [] ∧ GenerateBoundaries [] n = [] ∧
    ApproximationError [] = 0 ∧ MinValue [] = 0 ∧ MaxValue [] = 0 ∧
    TotalWeight [] = 0 :=
  ⟨rfl, rfl, rfl, rfl, rfl, rfl⟩

/-- Witness for claim C8 at `n = 3`. -/
theorem empty_summary_queries_witness :
    GenerateQuantiles [] 3 = [] ∧ GenerateBoundaries [] 3 = [] ∧
    ApproximationError [] = 0 ∧ MinValue [] = 0 ∧ MaxValue [] = 0 ∧
    TotalWeight [] = 0 :=
  empty_summary_queries 3

/-- Claim C9: each outer-loop iteration of `compress` makes strict progress:
from a read index `ri` with `ri + 1 < len`, the inner scan returns
`ni ∈ [ri+1, len]`, the updated read index is strictly larger than `ri` and
stays below `len`, and when the scan admits nothing (`ni = ri + 1`) the tie
branch fires (the compared entries are the same slot) and advances `ri` by
exactly one. -/
theorem compress_step_progress (es : List SumEntry) (epsDelta : ℚ)
    (sizeHint addStep acc : Int) (ri : Nat) (h : ri + 1 < es.length) :
    ri + 1 ≤ (innerScan es epsDelta sizeHint addStep ri es.length (ri + 1) acc).1 ∧
    (innerScan es epsDelta sizeHint addStep ri es.length (ri + 1) acc).1 ≤ es.length ∧
    ri < (if es.getD ri default = es.getD
          ((innerScan es epsDelta sizeHint addStep ri es.length (ri + 1) acc).1 - 1) default
        then ri + 1
        else (innerScan es epsDelta sizeHint addStep ri es.length (ri + 1) acc).1 - 1) ∧
    (if es.getD ri default = es.getD
          ((innerScan es epsDelta sizeHint addStep ri es.length (ri + 1) acc).1 - 1) default
        then ri + 1
        else (innerScan es epsDelta sizeHint addStep ri es.length (ri + 1) acc).1 - 1) <
      es.length ∧
    ((innerScan es epsDelta sizeHint addStep ri es.length (ri + 1) acc).1 = ri + 1 →
      (if es.getD ri default = es.getD
            ((innerScan es epsDelta sizeHint addStep ri es.length (ri + 1) acc).1 - 1) default
          then ri + 1
          else (innerScan es epsDelta sizeHint addStep ri es.length (ri + 1) acc).1 - 1) =
        ri + 1) := by
  have hbounds := innerScan_bounds es epsDelta sizeHint addStep ri es.length
    (ri + 1) acc (by omega)
  refine ⟨hbounds.1, hbounds.2, ?_, ?_, ?_⟩
  · by_cases htie : es.getD ri default = es.getD
        ((innerScan es epsDelta sizeHint addStep ri es.length (ri + 1) acc).1 - 1) default
    · rw [if_pos htie]; omega
    · rw [if_neg htie]
      have hne : (innerScan es epsDelta sizeHint addStep ri es.length (ri + 1) acc).1 - 1 ≠
          ri := fun hcontra => htie (by rw [hcontra])
      omega
  · by_cases htie : es.getD ri default = es.getD
        ((innerScan es epsDelta sizeHint addStep ri es.length (ri + 1) acc).1 - 1) default
    · rw [if_pos htie]; omega
    · rw [if_neg htie]; omega
  · intro heq
    rw [heq, Nat.add_sub_cancel]
    rw [if_pos rfl]

/-- Witness for claim C9 at the three-entry summary of `[(1,1),(2,1),(3,1)]`
with `ri = 0`. -/
theorem compress_step_progress_witness :
    (0 : Nat) + 1 < (buildFromBufferEntries [⟨1,1⟩, ⟨2,1⟩, ⟨3,1⟩]).length ∧
    0 + 1 ≤ (innerScan (buildFromBufferEntries [⟨1,1⟩, ⟨2,1⟩, ⟨3,1⟩]) 0 2 3 0
      (buildFromBufferEntries [⟨1,1⟩, ⟨2,1⟩, ⟨3,1⟩]).length (0 + 1) 0).1 :=
  ⟨by norm_num [buildFromBufferEntries, buildLoop],
    (compress_step_progress (buildFromBufferEntries [⟨1,1⟩, ⟨2,1⟩, ⟨3,1⟩]) 0 2 3 0 0
      (by norm_num [buildFromBufferEntries, buildLoop])).1⟩

/-- Claim C10: `ApproximationError` guards only against emptiness and then
divides the maximal gap by `TotalWeight()`; on the non-empty summary
`[⟨1, 0, 0, 0⟩]`, whose single entry has zero weight, the divisor
`TotalWeight` is `0` while the division is still performed. -/
theorem approximationError_zero_divisor :
    ([⟨1, 0, 0, 0⟩] : List SumEntry) ≠ [] ∧
    (⟨1, 0, 0, 0⟩ : SumEntry).weight = 0 ∧
    TotalWeight [⟨1, 0, 0, 0⟩] = 0 ∧
    ApproximationError [⟨1, 0, 0, 0⟩] =
      maxGapLoop ⟨1, 0, 0, 0⟩ [] 0 / TotalWeight [⟨1, 0, 0, 0⟩] :=
  ⟨by simp, rfl, rfl, rfl⟩

end Quantiles
